import Mathlib

/-!
Shallow embedding of the geometric schedule-extraction core of this
repository: the page extractor and time parser of
`parse_nycda_convention.py` and the normalizer/deduplicator of
`parse_wcde_convention.py`.  Coordinates are modelled as rationals,
Python strings as Lean `String`/`List Char`, and the regular
expressions of the source as deterministic recursive-descent scanners
that reproduce the (backtracking-free on these patterns) regex
semantics.  Fallible operations return `Option`.
-/

attribute [local semireducible] Rat.add Rat.sub Rat.mul Rat.inv

/-- ASCII whitespace test matching Python `str.split()` / regex `\s`
(space, tab, LF, VT, FF, CR). -/
def wsB (c : Char) : Bool :=
  c.toNat = 32 || (9 ≤ c.toNat && c.toNat ≤ 13)

/-- ASCII digit test matching regex `\d` on the ASCII schedule text. -/
def digitB (c : Char) : Bool :=
  48 ≤ c.toNat && c.toNat ≤ 57

/-- Lowercase one ASCII character, as Python `str.lower` does on ASCII. -/
def lowerC (c : Char) : Char :=
  if 65 ≤ c.toNat ∧ c.toNat ≤ 90 then Char.ofNat (c.toNat + 32) else c

/-- Uppercase one ASCII character, as Python `str.upper` does on ASCII. -/
def upperC (c : Char) : Char :=
  if 97 ≤ c.toNat ∧ c.toNat ≤ 122 then Char.ofNat (c.toNat - 32) else c

/-- The ASCII digit character for a value below ten. -/
def digitChar (n : Nat) : Char := Char.ofNat (48 + n)

/-- Numeric value of an ASCII digit character. -/
def digitVal (c : Char) : Nat := c.toNat - 48

/-- Accumulating pass splitting a character list into maximal
whitespace-free words, as Python `str.split()` with no arguments. -/
def wordsGo (cur : List Char) : List Char → List (List Char)
  | [] => if cur = [] then [] else [cur.reverse]
  | c :: cs =>
    if wsB c then
      if cur = [] then wordsGo [] cs else cur.reverse :: wordsGo [] cs
    else
      wordsGo (c :: cur) cs

/-- The whitespace-separated words of a character list. -/
def wordsOf (l : List Char) : List (List Char) := wordsGo [] l

/-- Whitespace normalization on characters: split into words and
re-join with single spaces. -/
def cleanChars (l : List Char) : List Char :=
  List.intercalate [' '] (wordsOf l)

/-- Source `clean_text` from the source: collapse all whitespace runs to
single spaces and trim the ends (the `\r`/`\n` pre-replacement of the
source is subsumed by whitespace splitting). -/
def clean_text (s : String) : String := ⟨cleanChars s.data⟩

/-- Python `str.strip()`: drop whitespace from both ends. -/
def stripChars (l : List Char) : List Char :=
  ((l.dropWhile wsB).reverse.dropWhile wsB).reverse

/-- Lowercase a string (ASCII), Python `str.lower`. -/
def lowerStr (s : String) : String := ⟨s.data.map lowerC⟩

/-- Uppercase a string (ASCII), Python `str.upper`. -/
def upperStr (s : String) : String := ⟨s.data.map upperC⟩

/-- Substring containment on character lists, Python `needle in hay`. -/
def containsSub (hay needle : List Char) : Bool :=
  match hay with
  | [] => needle = []
  | _ :: t => needle.isPrefixOf hay || containsSub t needle

/-- An `am`/`pm` meridiem marker captured by the time regexes. -/
inductive Mer where
  | am
  | pm
deriving DecidableEq, Repr

/-- Scanner for the regex fragment `(am|pm)?`: consume a meridiem
marker if one starts the input, else leave the input unchanged. -/
def merScan : List Char → Option Mer × List Char
  | 'a' :: 'm' :: rest => (some Mer.am, rest)
  | 'p' :: 'm' :: rest => (some Mer.pm, rest)
  | l => (none, l)

/-- Scanner for the regex fragment `\d{1,2}:\d{2}` with the greedy
one-or-two digit hour of the source patterns; returns the matched
clock characters and the remaining input. -/
def clockScan : List Char → Option (List Char × List Char)
  | a :: b :: rest₀ =>
    if digitB a then
      if b = ':' then
        match rest₀ with
        | c :: d :: rest =>
          if digitB c ∧ digitB d then some ([a, b, c, d], rest) else none
        | _ => none
      else if digitB b then
        match rest₀ with
        | k :: c :: d :: rest =>
          if k = ':' ∧ digitB c ∧ digitB d then some ([a, b, k, c, d], rest)
          else none
        | _ => none
      else none
    else none
  | _ => none

/-- Numeric hour and minute of a matched clock character list (the
two captured groups of the clock regex, converted with `int`). -/
def hourMin : List Char → Option (Int × Int)
  | [a, b, c, d] =>
    if b = ':' then
      some ((digitVal a : Int), (10 * digitVal c + digitVal d : Nat))
    else none
  | [a, b, k, c, d] =>
    if k = ':' then
      some ((10 * digitVal a + digitVal b : Nat), (10 * digitVal c + digitVal d : Nat))
    else none
  | _ => none

/-- Scanner for the anchored range regex
`^(\d{1,2}:\d{2})(am|pm)?-(\d{1,2}:\d{2})(am|pm)?$` of
`parse_time_range` (the input has already had spaces removed). -/
def rangeScan (l : List Char) :
    Option (List Char × Option Mer × List Char × Option Mer) :=
  match clockScan l with
  | none => none
  | some (c1, r1) =>
    match merScan r1 with
    | (m1, r2) =>
      match r2 with
      | '-' :: r3 =>
        match clockScan r3 with
        | none => none
        | some (c2, r4) =>
          match merScan r4 with
          | (m2, r5) => if r5 = [] then some (c1, m1, c2, m2) else none
      | _ => none

/-- Scanner for the anchored single-clock regex
`^(\d{1,2}:\d{2})(am|pm)?$` of `parse_time_range`. -/
def singleScan (l : List Char) : Option (List Char × Option Mer) :=
  match clockScan l with
  | none => none
  | some (c, r) =>
    match merScan r with
    | (m, r') => if r' = [] then some (c, m) else none

/-- The source's first meridiem-inheritance assignment: an absent
start meridiem inherits a present end meridiem. -/
def inheritStart (m1 m2 : Option Mer) : Option Mer :=
  match m1, m2 with
  | none, some m => some m
  | _, _ => m1

/-- The source's second meridiem-inheritance assignment, applied after
the first: an absent end meridiem inherits the (updated) start one. -/
def inheritEnd (m1 m2 : Option Mer) : Option Mer :=
  match inheritStart m1 m2, m2 with
  | some m, none => some m
  | _, _ => m2

namespace Nycda

/-- Source `HEADER_LABELS` from `parse_nycda_convention.py`. -/
def HEADER_LABELS : List String := ["SENIORS", "TEENS", "JUNIORS", "MINIS", "RSD"]

/-- Source `LEVEL_MAP` from `parse_nycda_convention.py`. -/
def LEVEL_MAP : List (String × String) :=
  [("SENIORS", "Senior"), ("TEENS", "Teen"), ("JUNIORS", "Junior"),
   ("MINIS", "Mini"), ("RSD", "RSD")]

/-- Source `normalize_level`: map an uppercased cleaned label through
`LEVEL_MAP`, defaulting to the cleaned label itself. -/
def normalize_level (raw : String) : String :=
  match LEVEL_MAP.find? (fun p => p.1 = upperStr (clean_text raw)) with
  | some p => p.2
  | none => clean_text raw

/-- Source `_clock_to_minutes`: re-match the anchored clock regex on the
cleaned clock text, then validate minute 0-59 and hour 1-12 (with 12
mapped to 0 and a 12-hour pm offset) when a meridiem is present,
hour 0-23 otherwise; result is minutes since midnight. -/
def clock_to_minutes (clock : List Char) (mer : Option Mer) : Option Int :=
  match clockScan (cleanChars clock) with
  | some (c, []) =>
    match hourMin c with
    | some (hour, minute) =>
      if minute < 0 ∨ 59 < minute then none
      else
        match mer with
        | some m =>
          if hour < 1 ∨ 12 < hour then none
          else
            let h := if hour = 12 then 0 else hour
            let h := if m = Mer.pm then h + 12 else h
            some (h * 60 + minute)
        | none =>
          if hour < 0 ∨ 23 < hour then none else some (hour * 60 + minute)
    | none => none
  | _ => none

/-- Zero-padded two-digit rendering of a value below 100, Python
`f"{n:02d}"` on the hour/minute values produced here. -/
def pad2 (n : Nat) : List Char :=
  if n < 10 then ['0', digitChar n] else [digitChar (n / 10), digitChar (n % 10)]

/-- Source `_minutes_to_hhmm`: reduce modulo one day and render as
zero-padded 24-hour `HH:MM`. -/
def minutes_to_hhmm (total : Int) : String :=
  let n := total % 1440
  ⟨pad2 (n / 60).toNat ++ ':' :: pad2 (n % 60).toNat⟩

/-- The range branch of `parse_time_range` after regex capture:
meridiem inheritance, clock conversion, duration with the half-day
repair, and rendering. -/
def rangeFinish (c1 : List Char) (m1 : Option Mer) (c2 : List Char)
    (m2 : Option Mer) : Option (String × String × Int) :=
  let m1' := inheritStart m1 m2
  let m2' := inheritEnd m1 m2
  match clock_to_minutes c1 m1', clock_to_minutes c2 m2' with
  | some sm, some em =>
    let d0 := em - sm
    let d := if d0 ≤ 0 then d0 + 720 else d0
    some (minutes_to_hhmm sm, minutes_to_hhmm (sm + d), d)
  | _, _ => none

/-- The single-clock branch of `parse_time_range` after regex capture:
a fixed 60-minute fallback duration. -/
def singleFinish (c : List Char) (m : Option Mer) :
    Option (String × String × Int) :=
  match clock_to_minutes c m with
  | some sm => some (minutes_to_hhmm sm, minutes_to_hhmm (sm + 60), 60)
  | none => none

/-- Normalization prefix of `parse_time_range`: clean, lowercase,
remove spaces. -/
def normalizeChars (value : String) : List Char :=
  ((cleanChars value.data).map lowerC).filter (fun c => c ≠ ' ')

/-- Source `parse_time_range` from `parse_nycda_convention.py`: `none` models
the `(None, None, None)` unparseable result. -/
def parse_time_range (value : String) : Option (String × String × Int) :=
  let text := normalizeChars value
  if text = [] then none
  else
    match rangeScan text with
    | some (c1, m1, c2, m2) => rangeFinish c1 m1 c2 m2
    | none =>
      match singleScan text with
      | some (c, m) => singleFinish c m
      | none => none

/-- Matcher for `TIME_PATTERN`
`^\d{1,2}:\d{2}(?:\s*(?:am|pm))?(?:\s*-\s*\d{1,2}:\d{2}(?:\s*(?:am|pm))?)?$`
(case-insensitive).  The optional meridiem group consumes its leading
whitespace only when a marker is actually present. -/
def timePatternB (l0 : List Char) : Bool :=
  let l := l0.map lowerC
  match clockScan l with
  | none => false
  | some (_, r1) =>
    let r2 := match merScan (r1.dropWhile wsB) with
      | (some _, r) => r
      | (none, _) => r1
    if r2 = [] then true
    else
      match r2.dropWhile wsB with
      | '-' :: r3 =>
        match clockScan (r3.dropWhile wsB) with
        | none => false
        | some (_, r4) =>
          let r5 := match merScan (r4.dropWhile wsB) with
            | (some _, r) => r
            | (none, _) => r4
          r5 = []
      | _ => false

/-- Source `is_time_cell`: `TIME_PATTERN` matched against the cleaned text. -/
def is_time_cell (text : String) : Bool :=
  timePatternB (clean_text text).data

/-- One positioned word of a page, as produced by the token source:
text plus bounding box. -/
structure Word where
  text : String
  x0 : ℚ
  x1 : ℚ
  top : ℚ
  bottom : ℚ
deriving DecidableEq, Repr

/-- One emitted schedule event, with the fields built by
`_extract_convention_page`. -/
structure Event where
  day : String
  level : String
  division : String
  room : String
  time : String
  start_time : String
  end_time : String
  duration : Int
  teacher : String
  instructor : String
  style : String
  class_name : String
  age_range : String
  is_audition_phrase : Bool
  raw_text : String
deriving DecidableEq, Repr

/-- Vertical center of a word, the `ycenter` computed by the source. -/
def yc (w : Word) : ℚ := (w.top + w.bottom) / 2

/-- Horizontal center of a word, `(x0 + x1) / 2`. -/
def xc (w : Word) : ℚ := (w.x0 + w.x1) / 2

/-- Floor of a rational as explicit integer division of numerator by
denominator (kept reducible for kernel evaluation). -/
def ratFloor (q : ℚ) : ℤ := q.num.fdiv q.den

/-- Python `round` (banker's rounding, half to even) on a rational. -/
def pyRound (q : ℚ) : ℤ :=
  let f := ratFloor q
  let r := q - (f : ℚ)
  if r < 1 / 2 then f
  else if 1 / 2 < r then f + 1
  else if f % 2 = 0 then f else f + 1

/-- Index of the first minimum of a list of rationals; `0` on the
empty list.  Mirrors Python `min(range(n), key=...)`, which keeps the
earliest index among ties. -/
def argminQ (l : List ℚ) : Nat :=
  (l.foldl
    (fun (acc : Nat × Nat × Option ℚ) v =>
      match acc with
      | (i, _, none) => (i + 1, i, some v)
      | (i, bi, some b) =>
        if v < b then (i + 1, i, some v) else (i + 1, bi, some b))
    (0, 0, none)).2.1

/-- First key of maximal cluster size, mirroring Python
`max(clusters.items(), key=len)` over insertion-ordered keys. -/
def argmaxKey (keys : List ℤ) (size : ℤ → Nat) : ℤ :=
  match keys with
  | [] => 0
  | k :: ks => ks.foldl (fun best k' => if size best < size k' then k' else best) k

/-- Keep the first occurrence of each element, in order — the key set
of a Python dict built by repeated insertion. -/
def firstDedupGo [DecidableEq α] (seen : List α) : List α → List α
  | [] => []
  | a :: l =>
    if a ∈ seen then firstDedupGo seen l else a :: firstDedupGo (a :: seen) l

/-- First-occurrence deduplication. -/
def firstDedup [DecidableEq α] (l : List α) : List α := firstDedupGo [] l

/-- Maximum of a rational list with first element as seed; `0` on the
empty list (the source only applies it to nonempty header lists). -/
def maxQ : List ℚ → ℚ
  | [] => 0
  | x :: xs => xs.foldl max x

/-- The row-banding loop of `_extract_convention_page`: walk the
vertically sorted words, extending the current band while the vertical
center stays within the threshold of the previous word's, flushing the
band otherwise, and flushing a nonempty trailing band at the end. -/
def bandLoop (rows : List (List Word)) (cur : List Word) (lastY : Option ℚ) :
    List Word → List (List Word)
  | [] => if cur = [] then rows else rows ++ [cur]
  | w :: ws =>
    match lastY with
    | none => bandLoop rows (cur ++ [w]) (some (yc w)) ws
    | some ly =>
      if |yc w - ly| ≤ 4 then bandLoop rows (cur ++ [w]) (some (yc w)) ws
      else bandLoop (rows ++ [cur]) [w] (some (yc w)) ws

/-- Row banding with the source's `row_threshold = 4`, from an already
sorted word list. -/
def bandsOf (l : List Word) : List (List Word) := bandLoop [] [] none l

/-- Sort relation by `x0` (Python stable sort key). -/
def leX0 (a b : Word) : Prop := a.x0 ≤ b.x0

instance : DecidableRel leX0 := fun a b => inferInstanceAs (Decidable (a.x0 ≤ b.x0))

/-- Sort relation by vertical center (Python stable sort key). -/
def leYc (a b : Word) : Prop := yc a ≤ yc b

instance : DecidableRel leYc := fun a b => inferInstanceAs (Decidable (yc a ≤ yc b))

/-- Source `assign_col`: name of the column whose center is nearest to the
given horizontal center, earliest column winning ties. -/
def assign_col (centers : List ℚ) (names : List String) (x : ℚ) : String :=
  (names.getD (argminQ (centers.map (fun c => |x - c|))) "")

/-- Source `build_row_cells`: per distinct column name, join the cleaned
texts of the band's words assigned to that column in `x0` order, then
strip; an association list standing for the Python dict. -/
def build_row_cells (names : List String) (centers : List ℚ)
    (rowWords : List Word) : List (String × String) :=
  (firstDedup names).map (fun name =>
    (name,
      String.mk (stripChars (List.intercalate [' ']
        (((rowWords.insertionSort leX0).filter
            (fun w => assign_col centers names (xc w) = name)).map
          (fun w => (clean_text w.text).data))))))

/-- Dict lookup with default empty string, Python `cells.get(k, "")`. -/
def cellGet (cells : List (String × String)) (name : String) : String :=
  match cells.find? (fun p => p.1 = name) with
  | some p => p.2
  | none => ""

/-- Source `is_time_row`: at least two nonempty cell values matching the time
pattern, counted over the dict's (distinct-key) values. -/
def is_time_row (cells : List (String × String)) : Bool :=
  2 ≤ (cells.filter (fun p => p.2 ≠ "" && is_time_cell p.2)).length

/-- The predicate selecting header-candidate words: cleaned uppercased
text equal to one of the known labels. -/
def isHeaderCand (w : Word) : Bool :=
  HEADER_LABELS.contains (upperStr (clean_text w.text))

/-- The per-column event emission of `_extract_convention_page` for
one time row, given the style/teacher/room cell rows. -/
def emitEvents (dayLabel : String) (names : List String) (cells styleRow
    teacherRow roomRow : List (String × String)) : List Event :=
  names.filterMap (fun levelKey =>
    let timeText := clean_text (cellGet cells levelKey)
    if timeText = "" ∨ ¬ is_time_cell timeText then none
    else
      let styleText := clean_text (cellGet styleRow levelKey)
      let teacherText := clean_text (cellGet teacherRow levelKey)
      let roomText := clean_text (cellGet roomRow levelKey)
      let division := normalize_level levelKey
      match parse_time_range timeText with
      | none => none
      | some (startTime, endTime, duration) =>
        if startTime = "" ∨ endTime = "" then none
        else
          let className := if styleText = "" then division ++ " Class" else styleText
          let rawText := String.intercalate " | "
            ([styleText, teacherText, timeText].filter (fun p => p ≠ ""))
          some
            { day := dayLabel
              level := division
              division := division
              room := roomText
              time := timeText
              start_time := startTime
              end_time := endTime
              duration := duration
              teacher := teacherText
              instructor := teacherText
              style := styleText
              class_name := className
              age_range := ""
              is_audition_phrase :=
                containsSub (lowerStr (className ++ " " ++ teacherText)).data
                  "audition".data
              raw_text := rawText })

/-- Source `_extract_convention_page`: headers, vertical clustering, banding,
cell assembly, time-row detection and event emission. -/
def extract_convention_page (words : List Word) (dayLabel : String) :
    List Event :=
  let headerCands := words.filter isHeaderCand
  if headerCands.length < 3 then []
  else
    let ckey := fun (w : Word) => pyRound (w.top / 5) * 5
    let keys := firstDedup (headerCands.map ckey)
    let bestKey := argmaxKey keys
      (fun k => (headerCands.filter (fun w => ckey w = k)).length)
    let bestWords := headerCands.filter (fun w => ckey w = bestKey)
    let headers := bestWords.insertionSort leX0
    let names := headers.map (fun w => upperStr (clean_text w.text))
    let centers := headers.map xc
    let headerBottom := maxQ (headers.map Word.bottom)
    let scheduleWords := words.filter (fun w => headerBottom + 2 < w.top)
    let rows := bandsOf (scheduleWords.insertionSort leYc)
    let cellRows := rows.map (build_row_cells names centers)
    match cellRows with
    | [] => []
    | roomRow :: _ =>
      let emptyCells : List (String × String) :=
        (firstDedup names).map (fun n => (n, ""))
      (cellRows.enum).flatMap (fun p =>
        let idx := p.1
        let cells := p.2
        if ¬ is_time_row cells then []
        else
          let styleRow := if 1 ≤ idx then cellRows.getD (idx - 1) emptyCells
            else emptyCells
          let teacherRow := if 2 ≤ idx then cellRows.getD (idx - 2) emptyCells
            else emptyCells
          emitEvents dayLabel names cells styleRow teacherRow roomRow)

/-- One input page: raw page text plus positioned words. -/
structure Page where
  rawText : String
  words : List Word
deriving Repr

/-- The day-label search of `parse_nycda_convention`: first position
in the page text where one of the day names matches
case-insensitively; the captured group is then title-cased. -/
def dayLabelGo : List Char → String
  | [] => ""
  | l@(_ :: rest) =>
    if "thursday".data.isPrefixOf l then "Thursday"
    else if "friday".data.isPrefixOf l then "Friday"
    else if "saturday".data.isPrefixOf l then "Saturday"
    else if "sunday".data.isPrefixOf l then "Sunday"
    else dayLabelGo rest

/-- Day label for a page, empty when no day name occurs. -/
def day_label (raw : String) : String := dayLabelGo (raw.data.map lowerC)

/-- Source `parse_nycda_convention` restricted to its core: extract every
page, and fail with the source's message when no events at all were
found (the pandas framing is outside the model). -/
def parse_nycda_convention (pages : List Page) : Except String (List Event) :=
  let events := pages.flatMap (fun p =>
    extract_convention_page p.words (day_label p.rawText))
  if events.isEmpty then
    Except.error "No NYCDA convention rows detected."
  else Except.ok events

end Nycda

namespace Nycda

/-- The header and band tokens of the end-to-end example exactly as
the claim states them: labels `MINI`/`JUNIOR`/`TEEN/SENIOR` centered
at 100/300/500, an instructor band, a style band and a time band in
the `JUNIOR` column. -/
def claimedPageWords : List Word :=
  [⟨"MINI", 90, 110, 10, 20⟩,
   ⟨"JUNIOR", 290, 310, 10, 20⟩,
   ⟨"TEEN/SENIOR", 490, 510, 10, 20⟩,
   ⟨"J. Smith", 290, 310, 25, 35⟩,
   ⟨"Hip Hop", 290, 310, 35, 45⟩,
   ⟨"7:30-8:15", 290, 310, 45, 55⟩]

/-- The same page with the header tokens replaced by labels the
extractor actually recognizes and with one additional cell in the time
band that matches the time pattern but fails to parse, so that the
band is classified as a time row. -/
def amendedPageWords : List Word :=
  [⟨"MINIS", 90, 110, 10, 20⟩,
   ⟨"JUNIORS", 290, 310, 10, 20⟩,
   ⟨"SENIORS", 490, 510, 10, 20⟩,
   ⟨"J. Smith", 290, 310, 25, 35⟩,
   ⟨"Hip Hop", 290, 310, 35, 45⟩,
   ⟨"25:00", 90, 110, 45, 55⟩,
   ⟨"7:30-8:15", 290, 310, 45, 55⟩]

end Nycda

namespace Wcde

/-- One candidate record fed to `add_duration_and_dedupe`; the
`duration` field of the inputs is ignored by the normalizer, which
recomputes it (`none` models the empty duration). -/
structure Record where
  class_name : String
  instructor : String
  room : String
  day : String
  start_time : String
  end_time : String
  duration : Option Int
  style : String
  division : String
  age_range : String
  level : String
  is_audition_phrase : Bool
  raw_text : String
deriving DecidableEq, Repr

/-- The `^(\d{1,2}):(\d{2})$` match of `add_duration_and_dedupe` on an
already-cleaned time string, as minutes since midnight with no range
validation on the captured hour and minute. -/
def hhmmVal (l : List Char) : Option Int :=
  match clockScan l with
  | some (c, []) =>
    match hourMin c with
    | some (h, m) => some (h * 60 + m)
    | none => none
  | _ => none

/-- Minutes-since-midnight of a record time field after cleaning, the
`tm`/`em` step of `add_duration_and_dedupe`. -/
def time_cell_minutes (s : String) : Option Int :=
  hhmmVal (cleanChars s.data)

/-- A cleaned string, or the given default when it is empty — Python
`clean_text(x) or default`. -/
def orDefault (s : String) (d : String) : String :=
  if clean_text s = "" then d else clean_text s

/-- The per-record normalization step of `add_duration_and_dedupe`:
clean every text field, substitute defaults, and recompute the
duration from start/end with the half-day repair. -/
def normalizeRow (r : Record) : Record :=
  let start := clean_text r.start_time
  let stop := clean_text r.end_time
  let duration :=
    match hhmmVal start.data, hhmmVal stop.data with
    | some sm, some em =>
      let d := em - sm
      some (if d ≤ 0 then d + 720 else d)
    | _, _ => none
  { class_name := clean_text r.class_name
    instructor := orDefault r.instructor "TBD"
    room := orDefault r.room "Main Ballroom"
    day := orDefault r.day "Saturday"
    start_time := start
    end_time := stop
    duration := duration
    style := clean_text r.style
    division := clean_text r.division
    age_range := clean_text r.age_range
    level := orDefault r.level "All Levels"
    is_audition_phrase := r.is_audition_phrase
    raw_text := clean_text r.raw_text }

/-- The dedupe key of `add_duration_and_dedupe`: day and start time
verbatim, class name, division and room lowercased. -/
def rowKey (r : Record) : String × String × String × String × String :=
  (r.day, r.start_time, lowerStr r.class_name, lowerStr r.division,
    lowerStr r.room)

/-- The seen-set loop of `add_duration_and_dedupe` over already
normalized rows: keep a row when its key is new, in encounter order. -/
def dedupeGo (seen : List (String × String × String × String × String)) :
    List Record → List Record
  | [] => []
  | r :: rest =>
    if rowKey r ∈ seen then dedupeGo seen rest
    else r :: dedupeGo (rowKey r :: seen) rest

/-- Source `add_duration_and_dedupe` from `parse_wcde_convention.py`:
normalize each record, then keep the first occurrence per key. -/
def add_duration_and_dedupe (records : List Record) : List Record :=
  dedupeGo [] (records.map normalizeRow)

/-- Specification-style first-per-key filter: keep each row whose key
has not occurred earlier, preserving order. -/
def keepFirstByKey : List Record → List Record
  | [] => []
  | r :: rest =>
    r :: keepFirstByKey (rest.filter (fun x => rowKey x ≠ rowKey r))
termination_by l => l.length
decreasing_by
  exact Nat.lt_succ_of_le (List.length_filter_le _ _)

end Wcde

/-- Minutes-since-midnight of a rendered `HH:MM` string, with junk
value `0` on strings not of that shape; used to compare output clock
strings as 24-hour times of one day. -/
def hhmmVal0 (s : String) : Int :=
  match Wcde.hhmmVal s.data with
  | some v => v
  | none => 0

/-- Strict comparison of two rendered clock strings as 24-hour times
of the same day. -/
def hhmmLt (a b : String) : Bool :=
  hhmmVal0 a < hhmmVal0 b

/-- Characters of a meridiem marker as written in normalized input. -/
def merChars : Mer → List Char
  | Mer.am => ['a', 'm']
  | Mer.pm => ['p', 'm']

/-- Hour range accepted by the converter, in the spec's words: 1-12
with a meridiem, 0-23 without. -/
def hour_ok (mer : Option Mer) (h : Int) : Prop :=
  match mer with
  | some _ => 1 ≤ h ∧ h ≤ 12
  | none => 0 ≤ h ∧ h ≤ 23

/-- Minute range accepted by the converter: 0-59. -/
def minute_ok (m : Int) : Prop := 0 ≤ m ∧ m ≤ 59

/-- A captured clock is acceptable for a given meridiem when its hour
and minute are in the applicable ranges. -/
def clock_ok (c : List Char) (mer : Option Mer) : Prop :=
  ∃ h m, hourMin c = some (h, m) ∧ hour_ok mer h ∧ minute_ok m

/-- A time string is well-formed, in the spec's words, when it matches
one of the two accepted shapes and every clock of the matched shape is
in range after meridiem inheritance. -/
def WellFormedTime (v : String) : Prop :=
  (∃ c1 m1 c2 m2, rangeScan (Nycda.normalizeChars v) = some (c1, m1, c2, m2) ∧
    clock_ok c1 (inheritStart m1 m2) ∧ clock_ok c2 (inheritEnd m1 m2)) ∨
  (∃ c m, singleScan (Nycda.normalizeChars v) = some (c, m) ∧ clock_ok c m)

/-- A candidate record whose time range crosses midnight without a
meridiem: the half-day repair leaves its duration negative and its
start after its end. -/
def lateNightRecord : Wcde.Record :=
  { class_name := "Late Class", instructor := "A", room := "R", day := "Saturday",
    start_time := "23:00", end_time := "1:00", duration := none, style := "",
    division := "Mini", age_range := "", level := "", is_audition_phrase := false,
    raw_text := "" }

/-- A morning record used to instantiate the normalizer duration rule. -/
def morningRecord : Wcde.Record :=
  { class_name := "Morning", instructor := "B", room := "R", day := "Saturday",
    start_time := "9:00", end_time := "8:00", duration := none, style := "",
    division := "Mini", age_range := "", level := "", is_audition_phrase := false,
    raw_text := "" }

/-- First of two records whose dedupe keys differ only in the casing
of the day field. -/
def dayCaseRecordA : Wcde.Record :=
  { class_name := "Ballet", instructor := "T", room := "Main", day := "Saturday",
    start_time := "9:00", end_time := "10:00", duration := none, style := "",
    division := "Mini", age_range := "", level := "", is_audition_phrase := false,
    raw_text := "" }

/-- Second of the pair: identical except for an uppercased day. -/
def dayCaseRecordB : Wcde.Record :=
  { class_name := "Ballet", instructor := "T", room := "Main", day := "SATURDAY",
    start_time := "9:00", end_time := "10:00", duration := none, style := "",
    division := "Mini", age_range := "", level := "", is_audition_phrase := false,
    raw_text := "" }

/-- Fully case-insensitive dedupe key, as the claim describes it:
every component lowercased. -/
def ciKey (r : Wcde.Record) : String × String × String × String × String :=
  (lowerStr r.day, lowerStr r.start_time, lowerStr r.class_name,
    lowerStr r.division, lowerStr r.room)

/-- Two one-word tokens with vertical centers 0 and 4: exactly at the
banding threshold. -/
def tokenAtZero : Nycda.Word := ⟨"a", 0, 1, 0, 0⟩

/-- A token with vertical center exactly 4 away from `tokenAtZero`. -/
def tokenAtFour : Nycda.Word := ⟨"b", 0, 1, 4, 4⟩

/-- A token with vertical center 9, strictly beyond the threshold. -/
def tokenAtNine : Nycda.Word := ⟨"c", 0, 1, 9, 9⟩

/-- A page with a day marker but no recognizable header tokens. -/
def headerlessPage : Nycda.Page :=
  { rawText := "Saturday, June 7",
    words := [⟨"Welcome", 0, 50, 10, 20⟩, ⟨"Dancers", 60, 110, 10, 20⟩] }

/-- A single-page document built from the amended end-to-end words. -/
def amendedPage : Nycda.Page :=
  { rawText := "Saturday", words := Nycda.amendedPageWords }

/-- The two shapes a captured clock can take: a one- or two-digit
hour, a colon, and a two-digit minute. -/
def ClockShape (c : List Char) : Prop :=
  (∃ a x y, c = [a, ':', x, y] ∧ digitB a = true ∧ digitB x = true ∧
    digitB y = true) ∨
  (∃ a b x y, c = [a, b, ':', x, y] ∧ digitB a = true ∧ digitB b = true ∧
    digitB x = true ∧ digitB y = true)

/-! ### Lemmas about whitespace splitting and cleaning -/

theorem wordsGo_wsfree (l : List Char) : ∀ (cur : List Char),
    (∀ c ∈ cur, wsB c = false) →
    ∀ w ∈ wordsGo cur l, w ≠ [] ∧ ∀ c ∈ w, wsB c = false := by
  induction l with
  | nil =>
    intro cur hcur w hw
    simp only [wordsGo] at hw
    split at hw
    · exact absurd hw (List.not_mem_nil w)
    · next hne =>
      rw [List.mem_singleton] at hw
      subst hw
      refine ⟨fun hrev => hne ?_, fun c hc => hcur c (List.mem_reverse.mp hc)⟩
      simpa using congrArg List.reverse hrev
  | cons c cs ih =>
    intro cur hcur w hw
    simp only [wordsGo] at hw
    by_cases hc : wsB c
    · rw [if_pos hc] at hw
      split at hw
      · exact ih [] (by simp) w hw
      · next hne =>
        rcases List.mem_cons.mp hw with rfl | hw'
        · exact ⟨fun hrev => hne (by simpa using congrArg List.reverse hrev),
            fun x hx => hcur x (List.mem_reverse.mp hx)⟩
        · exact ih [] (by simp) w hw'
    · rw [if_neg hc] at hw
      refine ih (c :: cur) ?_ w hw
      intro x hx
      rcases List.mem_cons.mp hx with rfl | hx'
      · simpa using hc
      · exact hcur x hx'

theorem wordsGo_append (w : List Char) : ∀ (cur l : List Char),
    (∀ c ∈ w, wsB c = false) →
    wordsGo cur (w ++ l) = wordsGo (w.reverse ++ cur) l := by
  induction w with
  | nil => intro cur l _; simp
  | cons c w' ih =>
    intro cur l hw
    have hc : wsB c = false := hw c (List.mem_cons_self c w')
    simp only [List.cons_append, wordsGo, hc, Bool.false_eq_true, if_false,
      List.reverse_cons, List.append_assoc, List.singleton_append]
    exact ih (c :: cur) l (fun x hx => hw x (List.mem_cons_of_mem c hx))

theorem intercalate_single (w : List Char) : List.intercalate [' '] [w] = w := by
  simp [List.intercalate]

/-- Python `" ".join`. -/
theorem unwords_words (ws : List (List Char)) :
    (∀ w ∈ ws, w ≠ [] ∧ ∀ c ∈ w, wsB c = false) →
    wordsOf (List.intercalate [' '] ws) = ws := by
  induction ws with
  | nil => intro _; rfl
  | cons w rest ih =>
    intro h
    have hw := h w (List.mem_cons_self w rest)
    have hrest := fun x hx => h x (List.mem_cons_of_mem w hx)
    cases rest with
    | nil =>
      show wordsGo [] (List.intercalate [' '] [w]) = [w]
      rw [intercalate_single]
      rw [show w = w ++ [] by simp, wordsGo_append w [] [] hw.2]
      simp only [wordsGo, List.append_nil]
      rw [if_neg (by simpa using hw.1)]
      simp
    | cons w2 rest2 =>
      show wordsGo [] (List.intercalate [' '] (w :: w2 :: rest2)) = w :: w2 :: rest2
      have hinter : List.intercalate [' '] (w :: w2 :: rest2)
          = w ++ ' ' :: List.intercalate [' '] (w2 :: rest2) := by
        simp [List.intercalate, List.intersperse]
      rw [hinter, wordsGo_append w [] _ hw.2]
      simp only [List.append_nil, wordsGo]
      rw [if_pos (by decide)]
      rw [if_neg (by simpa using hw.1)]
      simp only [List.reverse_reverse]
      exact congrArg (w :: ·) (ih hrest)

theorem cleanChars_idem (l : List Char) : cleanChars (cleanChars l) = cleanChars l := by
  unfold cleanChars
  rw [unwords_words (wordsOf l) (wordsGo_wsfree l [] (by simp))]

theorem clean_text_idem (s : String) : clean_text (clean_text s) = clean_text s := by
  show (⟨cleanChars (cleanChars s.data)⟩ : String) = ⟨cleanChars s.data⟩
  rw [cleanChars_idem]

/-- A nonempty whitespace-free character list is already clean. -/
theorem cleanChars_of_wsfree (l : List Char) (hne : l ≠ [])
    (h : ∀ c ∈ l, wsB c = false) : cleanChars l = l := by
  unfold cleanChars wordsOf
  rw [show l = l ++ [] by simp, wordsGo_append l [] [] (by simpa using h)]
  simp only [wordsGo, List.append_nil]
  rw [if_neg (by simpa using hne)]
  simp [intercalate_single]

/-! ### Lemmas about the normalizer and deduplicator -/

namespace Wcde

theorem keepFirstByKey_nil : keepFirstByKey [] = [] := by
  simp [keepFirstByKey]

theorem keepFirstByKey_cons (r : Record) (l : List Record) :
    keepFirstByKey (r :: l) =
      r :: keepFirstByKey (l.filter (fun x => rowKey x ≠ rowKey r)) := by
  rw [keepFirstByKey]

theorem dedupeGo_eq_keepFirst (l : List Record) :
    ∀ seen, dedupeGo seen l =
      keepFirstByKey (l.filter (fun x => rowKey x ∉ seen)) := by
  induction l with
  | nil => intro seen; simp [dedupeGo, keepFirstByKey_nil]
  | cons r rest ih =>
    intro seen
    by_cases h : rowKey r ∈ seen
    · rw [show dedupeGo seen (r :: rest) = dedupeGo seen rest from by
        simp [dedupeGo, h]]
      rw [List.filter_cons, if_neg (by simpa using h)]
      exact ih seen
    · rw [show dedupeGo seen (r :: rest) =
        r :: dedupeGo (rowKey r :: seen) rest from by simp [dedupeGo, h]]
      rw [List.filter_cons, if_pos (by simpa using h), keepFirstByKey_cons]
      rw [ih (rowKey r :: seen), List.filter_filter]
      refine congrArg (r :: keepFirstByKey ·) (List.filter_congr ?_)
      intro x _
      simp [List.mem_cons, not_or]

theorem keepFirstByKey_sublist_n (n : Nat) : ∀ (l : List Record),
    l.length ≤ n → List.Sublist (keepFirstByKey l) l := by
  induction n with
  | zero =>
    intro l hl
    rw [List.length_eq_zero.mp (Nat.le_zero.mp hl), keepFirstByKey_nil]
  | succ n ih =>
    intro l hl
    cases l with
    | nil => rw [keepFirstByKey_nil]
    | cons r rest =>
      rw [keepFirstByKey_cons]
      refine List.Sublist.cons₂ r ?_
      refine List.Sublist.trans (ih _ ?_) (List.filter_sublist rest)
      exact Nat.le_trans (List.length_filter_le _ _) (Nat.le_of_succ_le_succ hl)

theorem keepFirstByKey_sublist (l : List Record) :
    List.Sublist (keepFirstByKey l) l :=
  keepFirstByKey_sublist_n l.length l (Nat.le_refl _)

theorem dedupeGo_idem (l : List Record) :
    ∀ seen, dedupeGo seen (dedupeGo seen l) = dedupeGo seen l := by
  induction l with
  | nil => intro seen; rfl
  | cons r rest ih =>
    intro seen
    by_cases h : rowKey r ∈ seen
    · simp only [dedupeGo, if_pos h]
      exact ih seen
    · simp only [dedupeGo, if_neg h]
      rw [ih (rowKey r :: seen)]

theorem dedupeGo_subset (l : List Record) :
    ∀ seen x, x ∈ dedupeGo seen l → x ∈ l := by
  induction l with
  | nil => intro seen x hx; exact absurd hx (List.not_mem_nil x)
  | cons r rest ih =>
    intro seen x hx
    by_cases h : rowKey r ∈ seen
    · rw [show dedupeGo seen (r :: rest) = dedupeGo seen rest from by
        simp [dedupeGo, h]] at hx
      exact List.mem_cons_of_mem r (ih seen x hx)
    · rw [show dedupeGo seen (r :: rest) =
        r :: dedupeGo (rowKey r :: seen) rest from by simp [dedupeGo, h]] at hx
      rcases List.mem_cons.mp hx with rfl | hx'
      · exact List.mem_cons_self x rest
      · exact List.mem_cons_of_mem r (ih _ x hx')

theorem map_eq_self_of_mem {α : Type} (f : α → α) :
    ∀ (l : List α), (∀ x ∈ l, f x = x) → l.map f = l := by
  intro l
  induction l with
  | nil => intro _; rfl
  | cons a t ih =>
    intro h
    rw [List.map_cons, h a (List.mem_cons_self a t),
      ih (fun x hx => h x (List.mem_cons_of_mem a hx))]

theorem orDefault_clean (s d : String) (hd : clean_text d = d) :
    clean_text (orDefault s d) = orDefault s d := by
  unfold orDefault
  by_cases h : clean_text s = ""
  · rw [if_pos h]
    exact hd
  · rw [if_neg h]
    exact clean_text_idem s

theorem orDefault_idem (s d : String) (hd : clean_text d = d) (hdne : d ≠ "") :
    orDefault (orDefault s d) d = orDefault s d := by
  unfold orDefault
  by_cases h : clean_text s = ""
  · rw [if_pos h, hd, if_neg hdne]
  · rw [if_neg h, clean_text_idem, if_neg h]

theorem normalizeRow_idem (r : Record) :
    normalizeRow (normalizeRow r) = normalizeRow r := by
  have htbd : clean_text "TBD" = "TBD" := by decide
  have hmb : clean_text "Main Ballroom" = "Main Ballroom" := by decide
  have hsat : clean_text "Saturday" = "Saturday" := by decide
  have hal : clean_text "All Levels" = "All Levels" := by decide
  simp only [normalizeRow, clean_text_idem,
    orDefault_clean _ _ htbd, orDefault_clean _ _ hmb,
    orDefault_clean _ _ hsat, orDefault_clean _ _ hal,
    orDefault_idem _ _ htbd (by decide), orDefault_idem _ _ hmb (by decide),
    orDefault_idem _ _ hsat (by decide), orDefault_idem _ _ hal (by decide)]

end Wcde

/-! ### Claim theorems -/

/-- C1 (counterexample): on the page exactly as the claim describes it
— header tokens `MINI`/`JUNIOR`/`TEEN/SENIOR` and a single time cell
in the `JUNIOR` column — the page extractor emits no entry at all:
those labels are not among the extractor's header labels, and a band
with a single time cell is not classified as a time row. -/
theorem c1_counterexample :
    Nycda.extract_convention_page Nycda.claimedPageWords "Saturday" = [] := by
  decide

/-- C1 (amended): with the header tokens replaced by recognized labels
`MINIS`@100 / `JUNIORS`@300 / `SENIORS`@500 and one additional
pattern-matching but unparseable cell `25:00`@100 in the time band (so
that at least two cells match the time pattern), the page yields
exactly one entry: division `Junior`, class `Hip Hop`, instructor
`J. Smith`, `07:30`-`08:15`, 45 minutes, and nothing for the other
columns. -/
theorem c1_extraction_amended :
    (Nycda.extract_convention_page Nycda.amendedPageWords "Saturday").map
      (fun ev => (ev.division, ev.class_name, ev.instructor, ev.start_time,
        ev.end_time, ev.duration)) =
      [("Junior", "Hip Hop", "J. Smith", "07:30", "08:15", 45)] := by
  decide

/-- C5: the three documented examples of the time parser: a range with
inherited meridiem, a meridiem-free 24-hour range, and a single clock
with the 60-minute fallback duration. -/
theorem c5_documented_examples :
    Nycda.parse_time_range "7:30-8:15am" = some ("07:30", "08:15", 45) ∧
    Nycda.parse_time_range "13:00-14:00" = some ("13:00", "14:00", 60) ∧
    Nycda.parse_time_range "7:30am" = some ("07:30", "08:30", 60) := by
  decide

/-- C7 (counterexample): two records whose dedupe keys are equal up to
case — they differ only in the casing of the day — are both kept by
the deduplicator, so the key is not case-insensitive in the day
component. -/
theorem c7_counterexample :
    (Wcde.add_duration_and_dedupe [dayCaseRecordA, dayCaseRecordB]).length = 2 ∧
      ciKey (Wcde.normalizeRow dayCaseRecordA) =
        ciKey (Wcde.normalizeRow dayCaseRecordB) := by
  decide

/-- C7 (amended): the deduplicator keeps, among records with equal
keys — day and start time compared verbatim, class name, division and
room compared lowercased — only the first in encounter order, and its
output is a subsequence of the normalized input. -/
theorem c7_dedupe_amended (records : List Wcde.Record) :
    Wcde.add_duration_and_dedupe records =
      Wcde.keepFirstByKey (records.map Wcde.normalizeRow) ∧
    List.Sublist (Wcde.add_duration_and_dedupe records)
      (records.map Wcde.normalizeRow) := by
  have h : Wcde.add_duration_and_dedupe records =
      Wcde.keepFirstByKey (records.map Wcde.normalizeRow) := by
    unfold Wcde.add_duration_and_dedupe
    rw [Wcde.dedupeGo_eq_keepFirst, List.filter_eq_self.mpr]
    intro a _
    simp
  exact ⟨h, h ▸ Wcde.keepFirstByKey_sublist _⟩

/-- C8: the normalizer/deduplicator is idempotent: applying it twice
to any candidate record list gives the same output as applying it
once. -/
theorem c8_normalizer_idempotent (records : List Wcde.Record) :
    Wcde.add_duration_and_dedupe (Wcde.add_duration_and_dedupe records) =
      Wcde.add_duration_and_dedupe records := by
  unfold Wcde.add_duration_and_dedupe
  rw [Wcde.map_eq_self_of_mem Wcde.normalizeRow _ ?h, Wcde.dedupeGo_idem]
  case h =>
    intro x hx
    obtain ⟨y, _, rfl⟩ :=
      List.mem_map.mp (Wcde.dedupeGo_subset _ [] x hx)
    exact Wcde.normalizeRow_idem y

/-- C9: in the row-banding scan, a token whose vertical center differs
from the previous token's by exactly the threshold (4) is appended to
the current band, while a strictly greater difference closes the
current band and starts a new one at that token. -/
theorem c9_band_threshold (rows : List (List Nycda.Word))
    (cur : List Nycda.Word) (ly : ℚ) (w : Nycda.Word) (ws : List Nycda.Word) :
    (|Nycda.yc w - ly| = 4 →
      Nycda.bandLoop rows cur (some ly) (w :: ws) =
        Nycda.bandLoop rows (cur ++ [w]) (some (Nycda.yc w)) ws) ∧
    (4 < |Nycda.yc w - ly| →
      Nycda.bandLoop rows cur (some ly) (w :: ws) =
        Nycda.bandLoop (rows ++ [cur]) [w] (some (Nycda.yc w)) ws) := by
  constructor
  · intro h
    simp only [Nycda.bandLoop]
    rw [if_pos (le_of_eq h)]
  · intro h
    simp only [Nycda.bandLoop]
    rw [if_neg (not_le.mpr h)]

/-- C9 (witness): concrete tokens at vertical centers 0 and 4 merge
into one band; tokens at 0 and 9 split into two bands. -/
theorem c9_witness :
    Nycda.bandLoop [] [tokenAtZero] (some 0) [tokenAtFour] =
      Nycda.bandLoop [] ([tokenAtZero] ++ [tokenAtFour])
        (some (Nycda.yc tokenAtFour)) [] ∧
    Nycda.bandLoop [] [tokenAtZero] (some 0) [tokenAtNine] =
      Nycda.bandLoop ([] ++ [[tokenAtZero]]) [tokenAtNine]
        (some (Nycda.yc tokenAtNine)) [] :=
  ⟨(c9_band_threshold [] [tokenAtZero] 0 tokenAtFour []).1 (by decide),
   (c9_band_threshold [] [tokenAtZero] 0 tokenAtNine []).2 (by decide)⟩

/-- C10: a page with fewer than 3 header-candidate tokens contributes
nothing: its extraction is the empty list, and dropping such a page
from a document leaves the whole-document result unchanged (remaining
pages are still processed; no error is raised for the page). -/
theorem c10_insufficient_headers (p : Nycda.Page) (day : String)
    (pre post : List Nycda.Page)
    (h : (p.words.filter Nycda.isHeaderCand).length < 3) :
    Nycda.extract_convention_page p.words day = [] ∧
    Nycda.parse_nycda_convention (pre ++ p :: post) =
      Nycda.parse_nycda_convention (pre ++ post) := by
  have hext : ∀ d, Nycda.extract_convention_page p.words d = [] := by
    intro d
    unfold Nycda.extract_convention_page
    rw [if_pos h]
  refine ⟨hext day, ?_⟩
  unfold Nycda.parse_nycda_convention
  have hflat : (pre ++ p :: post).flatMap
      (fun q => Nycda.extract_convention_page q.words (Nycda.day_label q.rawText)) =
      (pre ++ post).flatMap
      (fun q => Nycda.extract_convention_page q.words (Nycda.day_label q.rawText)) := by
    simp [List.flatMap_append, List.flatMap_cons, hext]
  rw [hflat]

/-- C10 (witness): a concrete page with a day marker and no header
tokens yields no entries, and a document consisting of only that page
behaves exactly like the empty document. -/
theorem c10_witness :
    Nycda.extract_convention_page headerlessPage.words "Saturday" = [] ∧
    Nycda.parse_nycda_convention ([] ++ headerlessPage :: []) =
      Nycda.parse_nycda_convention ([] ++ []) :=
  c10_insufficient_headers headerlessPage "Saturday" [] [] (by decide)

/-! ### Lemmas about digits, clock scanning and rendering -/

theorem digitB_ne_colon {c : Char} (h : digitB c = true) : c ≠ ':' := by
  intro heq
  subst heq
  exact absurd h (by decide)

theorem digitB_not_ws {c : Char} (h : digitB c = true) : wsB c = false := by
  unfold digitB at h
  unfold wsB
  simp only [Bool.and_eq_true, decide_eq_true_eq] at h
  simp only [Bool.or_eq_false_iff, decide_eq_false_iff_not, Bool.and_eq_false_iff]
  omega

theorem digitB_lowerC {c : Char} (h : digitB c = true) : lowerC c = c := by
  unfold lowerC
  rw [if_neg]
  unfold digitB at h
  simp only [Bool.and_eq_true, decide_eq_true_eq] at h
  omega

theorem digitB_digitChar (k : Nat) (hk : k < 10) : digitB (digitChar k) = true := by
  interval_cases k <;> decide

theorem digitVal_digitChar (k : Nat) (hk : k < 10) : digitVal (digitChar k) = k := by
  interval_cases k <;> decide

theorem clockScan_one_digit (a x y : Char) (rest : List Char)
    (ha : digitB a = true) (hx : digitB x = true) (hy : digitB y = true) :
    clockScan ([a, ':', x, y] ++ rest) = some ([a, ':', x, y], rest) := by
  show clockScan (a :: ':' :: x :: y :: rest) = _
  simp [clockScan, ha, hx, hy]

theorem clockScan_two_digit (a b x y : Char) (rest : List Char)
    (ha : digitB a = true) (hb : digitB b = true)
    (hx : digitB x = true) (hy : digitB y = true) :
    clockScan ([a, b, ':', x, y] ++ rest) = some ([a, b, ':', x, y], rest) := by
  show clockScan (a :: b :: ':' :: x :: y :: rest) = _
  simp [clockScan, ha, hb, hx, hy, digitB_ne_colon hb]

theorem clockScan_some {l c r : List Char} (h : clockScan l = some (c, r)) :
    l = c ++ r ∧ ClockShape c := by
  unfold ClockShape
  match l with
  | [] => exact absurd h (by simp [clockScan])
  | [a] => exact absurd h (by simp [clockScan])
  | a :: b :: rest₀ =>
    simp only [clockScan] at h
    split_ifs at h with ha hb hb2
    · split at h
      case _ x y rest =>
        split_ifs at h with hxy
        rw [Option.some.injEq, Prod.mk.injEq] at h
        obtain ⟨hc, hr⟩ := h
        subst hc
        subst hr
        subst hb
        exact ⟨rfl, Or.inl ⟨a, x, y, rfl, ha, hxy.1, hxy.2⟩⟩
      case _ => exact absurd h (by simp)
    · split at h
      case _ k x y rest =>
        split_ifs at h with hcond
        rw [Option.some.injEq, Prod.mk.injEq] at h
        obtain ⟨hc, hr⟩ := h
        subst hc
        subst hr
        obtain ⟨hk, hx, hy⟩ := hcond
        subst hk
        exact ⟨rfl, Or.inr ⟨a, b, x, y, rfl, ha, hb2, hx, hy⟩⟩
      case _ => exact absurd h (by simp)

theorem pad2_spec (n : Nat) (hn : n ≤ 99) :
    ∃ a b, Nycda.pad2 n = [a, b] ∧ digitB a = true ∧ digitB b = true ∧
      10 * digitVal a + digitVal b = n := by
  unfold Nycda.pad2
  by_cases h : n < 10
  · rw [if_pos h]
    refine ⟨'0', digitChar n, rfl, by decide, digitB_digitChar n h, ?_⟩
    rw [digitVal_digitChar n h]
    have h0 : digitVal '0' = 0 := by decide
    omega
  · rw [if_neg h]
    have h10 : n / 10 < 10 := by omega
    have h1 : n % 10 < 10 := by omega
    refine ⟨digitChar (n / 10), digitChar (n % 10), rfl,
      digitB_digitChar _ h10, digitB_digitChar _ h1, ?_⟩
    rw [digitVal_digitChar _ h10, digitVal_digitChar _ h1]
    omega

theorem hhmmVal_pads (h m : Nat) (hh : h ≤ 99) (hm : m ≤ 99) :
    Wcde.hhmmVal (Nycda.pad2 h ++ ':' :: Nycda.pad2 m) =
      some ((60 * h + m : Nat) : Int) := by
  obtain ⟨a, b, hab, ha, hb, hv⟩ := pad2_spec h hh
  obtain ⟨x, y, hxy, hx, hy, hv2⟩ := pad2_spec m hm
  rw [hab, hxy]
  unfold Wcde.hhmmVal
  rw [show ([a, b] ++ ':' :: [x, y] : List Char) = [a, b, ':', x, y] ++ [] from rfl]
  rw [clockScan_two_digit a b x y [] ha hb hx hy]
  simp only [hourMin, if_true]
  congr 1
  push_cast
  omega

theorem hhmmVal0_of_some {s : String} {v : Int}
    (h : Wcde.hhmmVal s.data = some v) : hhmmVal0 s = v := by
  unfold hhmmVal0
  rw [h]

theorem hhmmVal0_render (t : Int) :
    hhmmVal0 (Nycda.minutes_to_hhmm t) = t % 1440 := by
  have h0 : 0 ≤ t % 1440 := Int.emod_nonneg t (by decide)
  have h1 : t % 1440 < 1440 := Int.emod_lt_of_pos t (by decide)
  have hp := hhmmVal_pads ((t % 1440) / 60).toNat ((t % 1440) % 60).toNat
    (by omega) (by omega)
  have hdata : Wcde.hhmmVal (Nycda.minutes_to_hhmm t).data =
      some ((60 * ((t % 1440) / 60).toNat + ((t % 1440) % 60).toNat : Nat) : Int) := by
    exact hp
  rw [hhmmVal0_of_some hdata]
  omega

theorem hourMin_nonneg {c : List Char} {h m : Int}
    (hc : hourMin c = some (h, m)) : 0 ≤ h ∧ 0 ≤ m := by
  unfold hourMin at hc
  split at hc
  · split_ifs at hc
    rw [Option.some.injEq, Prod.mk.injEq] at hc
    obtain ⟨rfl, rfl⟩ := hc
    constructor <;> positivity
  · split_ifs at hc
    rw [Option.some.injEq, Prod.mk.injEq] at hc
    obtain ⟨rfl, rfl⟩ := hc
    constructor <;> positivity
  · exact absurd hc (by simp)

theorem clock_to_minutes_bounds {c : List Char} {mer : Option Mer} {v : Int}
    (h : Nycda.clock_to_minutes c mer = some v) : 0 ≤ v ∧ v < 1440 := by
  unfold Nycda.clock_to_minutes at h
  split at h
  case _ c' heq =>
    split at h
    case _ hour minute hm =>
      obtain ⟨hh0, hm0⟩ := hourMin_nonneg hm
      by_cases hmin : minute < 0 ∨ 59 < minute
      · rw [if_pos hmin] at h
        exact absurd h (by simp)
      · rw [if_neg hmin] at h
        push_neg at hmin
        cases mer with
        | some mm =>
          simp only [] at h
          by_cases hh : hour < 1 ∨ 12 < hour
          · rw [if_pos hh] at h
            exact absurd h (by simp)
          · rw [if_neg hh] at h
            push_neg at hh
            rw [Option.some.injEq] at h
            subst h
            split_ifs <;> omega
        | none =>
          simp only [] at h
          by_cases hh : hour < 0 ∨ 23 < hour
          · rw [if_pos hh] at h
            exact absurd h (by simp)
          · rw [if_neg hh] at h
            push_neg at hh
            rw [Option.some.injEq] at h
            subst h
            omega
    case _ => exact absurd h (by simp)
  case _ => exact absurd h (by simp)

theorem parse_some_render {v : String} {s e : String} {d : Int}
    (h : Nycda.parse_time_range v = some (s, e, d)) :
    ∃ sm : Int, 0 ≤ sm ∧ sm < 1440 ∧ s = Nycda.minutes_to_hhmm sm ∧
      e = Nycda.minutes_to_hhmm (sm + d) := by
  simp only [Nycda.parse_time_range] at h
  split at h
  · exact absurd h (by simp)
  · split at h
    case _ c1 m1 c2 m2 hscan =>
      simp only [Nycda.rangeFinish] at h
      split at h
      case _ sm em hsm hem =>
        rw [Option.some.injEq, Prod.mk.injEq, Prod.mk.injEq] at h
        obtain ⟨hs, he, hd⟩ := h
        obtain ⟨b1, b2⟩ := clock_to_minutes_bounds hsm
        subst hd
        exact ⟨sm, b1, b2, hs.symm, he.symm⟩
      case _ => exact absurd h (by simp)
    case _ hscan =>
      split at h
      case _ cc m hsingle =>
        unfold Nycda.singleFinish at h
        split at h
        case _ sm hsm =>
          rw [Option.some.injEq, Prod.mk.injEq, Prod.mk.injEq] at h
          obtain ⟨hs, he, hd⟩ := h
          obtain ⟨b1, b2⟩ := clock_to_minutes_bounds hsm
          subst hd
          exact ⟨sm, b1, b2, hs.symm, he.symm⟩
        case _ => exact absurd h (by simp)
      case _ => exact absurd h (by simp)

/-- C2 (counterexample): the candidate record with time range
`23:00-1:00` passes through the normalizer with its start after its
end — the half-day repair leaves duration `-600` and the invariant
`start_time < end_time` fails on the emitted record. -/
theorem c2_counterexample :
    (Wcde.add_duration_and_dedupe [lateNightRecord]).map
      (fun r => (r.start_time, r.end_time, r.duration)) =
      [("23:00", "1:00", some (-600))] ∧
    hhmmLt "23:00" "1:00" = false := by
  decide

/-- C2 (amended): the parser's rendered start is strictly before its
rendered end whenever the repaired duration is positive and the end
does not wrap past midnight; and a normalizer output satisfies
`start_time < end_time` exactly when its recomputed duration is the
raw difference `end − start` (the half-day repair did not fire). -/
theorem c2_start_lt_end_amended :
    (∀ (v s e : String) (d : Int), Nycda.parse_time_range v = some (s, e, d) →
      0 < d → hhmmVal0 s + d < 1440 → hhmmLt s e = true) ∧
    (∀ (r : Wcde.Record) (sm em : Int),
      Wcde.time_cell_minutes r.start_time = some sm →
      Wcde.time_cell_minutes r.end_time = some em →
      (hhmmLt (Wcde.normalizeRow r).start_time
          (Wcde.normalizeRow r).end_time = true ↔
        (Wcde.normalizeRow r).duration = some (em - sm))) := by
  constructor
  · intro v s e d hp hdpos hlt
    obtain ⟨sm, h0, h1, hs, he⟩ := parse_some_render hp
    subst hs
    subst he
    rw [hhmmVal0_render, Int.emod_eq_of_lt h0 h1] at hlt
    simp only [hhmmLt, hhmmVal0_render]
    rw [Int.emod_eq_of_lt h0 h1, Int.emod_eq_of_lt (by omega) (by omega)]
    simp only [decide_eq_true_eq]
    omega
  · intro r sm em hsm hem
    have hsm' : Wcde.hhmmVal (clean_text r.start_time).data = some sm := hsm
    have hem' : Wcde.hhmmVal (clean_text r.end_time).data = some em := hem
    have hstart : (Wcde.normalizeRow r).start_time = clean_text r.start_time := rfl
    have hend : (Wcde.normalizeRow r).end_time = clean_text r.end_time := rfl
    have hdur : (Wcde.normalizeRow r).duration =
        some (if em - sm ≤ 0 then em - sm + 720 else em - sm) := by
      simp only [Wcde.normalizeRow]
      rw [hsm', hem']
    rw [hstart, hend, hdur]
    simp only [hhmmLt, hhmmVal0_of_some hsm', hhmmVal0_of_some hem',
      decide_eq_true_eq, Option.some.injEq]
    constructor
    · intro hlt'
      rw [if_neg (by omega)]
    · intro hd
      by_cases hle : em - sm ≤ 0
      · rw [if_pos hle] at hd
        omega
      · omega

/-- C2 (witness): the parsed range `7:30-8:15am` satisfies the
invariant, and the concrete morning record's normalized output
satisfies the iff at minutes 540 and 480. -/
theorem c2_witness :
    hhmmLt "07:30" "08:15" = true ∧
    (hhmmLt (Wcde.normalizeRow morningRecord).start_time
        (Wcde.normalizeRow morningRecord).end_time = true ↔
      (Wcde.normalizeRow morningRecord).duration = some ((480 : Int) - 540)) :=
  ⟨c2_start_lt_end_amended.1 "7:30-8:15am" "07:30" "08:15" 45 (by decide)
      (by decide) (by decide),
   c2_start_lt_end_amended.2 morningRecord 540 480 (by decide) (by decide)⟩

/-- C3: whenever the range shape matches and both clocks convert, the
parser returns duration `end − start` with exactly 720 minutes added
exactly when that difference is nonpositive, and renders the end as
start plus that repaired duration; the normalizer recomputes duration
from `start_time`/`end_time` by the same rule. -/
theorem c3_duration_rule :
    (∀ (v : String) (c1 : List Char) (m1 : Option Mer) (c2 : List Char)
        (m2 : Option Mer) (sm em : Int),
      rangeScan (Nycda.normalizeChars v) = some (c1, m1, c2, m2) →
      Nycda.clock_to_minutes c1 (inheritStart m1 m2) = some sm →
      Nycda.clock_to_minutes c2 (inheritEnd m1 m2) = some em →
      Nycda.parse_time_range v =
        some (Nycda.minutes_to_hhmm sm,
          Nycda.minutes_to_hhmm
            (sm + (if em - sm ≤ 0 then em - sm + 720 else em - sm)),
          if em - sm ≤ 0 then em - sm + 720 else em - sm)) ∧
    (∀ (r : Wcde.Record) (sm em : Int),
      Wcde.time_cell_minutes r.start_time = some sm →
      Wcde.time_cell_minutes r.end_time = some em →
      (Wcde.normalizeRow r).duration =
        some (if em - sm ≤ 0 then em - sm + 720 else em - sm)) := by
  constructor
  · intro v c1 m1 c2 m2 sm em hscan hsm hem
    have hne : Nycda.normalizeChars v ≠ [] := by
      intro hnil
      rw [hnil] at hscan
      exact absurd hscan (by simp [rangeScan, clockScan])
    unfold Nycda.parse_time_range
    simp only []
    rw [if_neg hne, hscan]
    simp only []
    simp only [Nycda.rangeFinish]
    rw [hsm, hem]
  · intro r sm em hsm hem
    have hsm' : Wcde.hhmmVal (clean_text r.start_time).data = some sm := hsm
    have hem' : Wcde.hhmmVal (clean_text r.end_time).data = some em := hem
    simp only [Wcde.normalizeRow]
    rw [hsm', hem']

/-- C3 (witness): the rule instantiated on the concrete range
`7:30-8:15am` (minutes 450 and 495) and on the concrete morning record
(minutes 540 and 480, where the repair fires). -/
theorem c3_witness :
    Nycda.parse_time_range "7:30-8:15am" =
      some (Nycda.minutes_to_hhmm 450,
        Nycda.minutes_to_hhmm
          (450 + (if (495 : Int) - 450 ≤ 0 then 495 - 450 + 720 else 495 - 450)),
        if (495 : Int) - 450 ≤ 0 then 495 - 450 + 720 else 495 - 450) ∧
    (Wcde.normalizeRow morningRecord).duration =
      some (if (480 : Int) - 540 ≤ 0 then 480 - 540 + 720 else 480 - 540) :=
  ⟨c3_duration_rule.1 "7:30-8:15am" ['7', ':', '3', '0'] none
      ['8', ':', '1', '5'] (some Mer.am) 450 495 (by decide) (by decide)
      (by decide),
   c3_duration_rule.2 morningRecord 540 480 (by decide) (by decide)⟩

/-! ### Lemmas for meridiem inheritance -/

theorem merScan_merChars (m : Mer) (rest : List Char) :
    merScan (merChars m ++ rest) = (some m, rest) := by
  cases m <;> rfl

theorem merScan_merChars_nil (m : Mer) : merScan (merChars m) = (some m, []) := by
  cases m <;> rfl

theorem digitB_ne_space {c : Char} (h : digitB c = true) : c ≠ ' ' := by
  intro heq
  subst heq
  exact absurd h (by decide)

theorem clock_shape_chars {c : List Char} (h : ClockShape c) :
    ∀ ch ∈ c, digitB ch = true ∨ ch = ':' := by
  rcases h with ⟨a, x, y, rfl, ha, hx, hy⟩ | ⟨a, b, x, y, rfl, ha, hb, hx, hy⟩ <;>
    intro ch hch <;> simp only [List.mem_cons, List.not_mem_nil, or_false] at hch
  · rcases hch with rfl | rfl | rfl | rfl
    · exact Or.inl ha
    · exact Or.inr rfl
    · exact Or.inl hx
    · exact Or.inl hy
  · rcases hch with rfl | rfl | rfl | rfl | rfl
    · exact Or.inl ha
    · exact Or.inl hb
    · exact Or.inr rfl
    · exact Or.inl hx
    · exact Or.inl hy

theorem built_chars (mer : Mer) {c1 c2 : List Char}
    (h1 : ClockShape c1) (h2 : ClockShape c2) :
    ∀ ch ∈ c1 ++ merChars mer ++ '-' :: (c2 ++ merChars mer),
      wsB ch = false ∧ lowerC ch = ch ∧ ch ≠ ' ' := by
  intro ch hch
  have hmer : ∀ x ∈ merChars mer, x = 'a' ∨ x = 'm' ∨ x = 'p' := by
    cases mer <;> intro x hx <;>
      simp only [merChars, List.mem_cons, List.not_mem_nil, or_false] at hx <;>
      rcases hx with rfl | rfl <;> simp
  have hcase : digitB ch = true ∨ ch = ':' ∨ ch = '-' ∨ ch = 'a' ∨ ch = 'm' ∨
      ch = 'p' := by
    rcases List.mem_append.mp hch with hrest | hrest2
    · rcases List.mem_append.mp hrest with h | h
      · rcases clock_shape_chars h1 ch h with hd | rfl
        · exact Or.inl hd
        · exact Or.inr (Or.inl rfl)
      · rcases hmer ch h with rfl | rfl | rfl <;> simp
    · rcases List.mem_cons.mp hrest2 with rfl | hrest3
      · simp
      · rcases List.mem_append.mp hrest3 with h | h
        · rcases clock_shape_chars h2 ch h with hd | rfl
          · exact Or.inl hd
          · exact Or.inr (Or.inl rfl)
        · rcases hmer ch h with rfl | rfl | rfl <;> simp
  rcases hcase with hd | rfl | rfl | rfl | rfl | rfl
  · exact ⟨digitB_not_ws hd, digitB_lowerC hd, digitB_ne_space hd⟩
  · exact ⟨by decide, by decide, by decide⟩
  · exact ⟨by decide, by decide, by decide⟩
  · exact ⟨by decide, by decide, by decide⟩
  · exact ⟨by decide, by decide, by decide⟩
  · exact ⟨by decide, by decide, by decide⟩

theorem clock_shape_ne_nil {c : List Char} (h : ClockShape c) : c ≠ [] := by
  rcases h with ⟨a, x, y, rfl, _⟩ | ⟨a, b, x, y, rfl, _⟩ <;> simp

theorem normalizeChars_built (mer : Mer) {c1 c2 : List Char}
    (h1 : ClockShape c1) (h2 : ClockShape c2) :
    Nycda.normalizeChars ⟨c1 ++ merChars mer ++ '-' :: (c2 ++ merChars mer)⟩ =
      c1 ++ merChars mer ++ '-' :: (c2 ++ merChars mer) := by
  have hall := built_chars mer h1 h2
  unfold Nycda.normalizeChars
  rw [show (String.mk (c1 ++ merChars mer ++ '-' :: (c2 ++ merChars mer))).data =
    c1 ++ merChars mer ++ '-' :: (c2 ++ merChars mer) from rfl]
  rw [cleanChars_of_wsfree _ ?hne (fun c hc => (hall c hc).1)]
  case hne =>
    intro hnil
    rw [List.append_assoc, List.append_eq_nil] at hnil
    exact clock_shape_ne_nil h1 hnil.1
  rw [Wcde.map_eq_self_of_mem lowerC _ (fun c hc => (hall c hc).2.1)]
  rw [List.filter_eq_self.mpr]
  intro a ha
  simpa using (hall a ha).2.2

theorem clockScan_shape_front {c : List Char} (h : ClockShape c)
    (rest : List Char) : clockScan (c ++ rest) = some (c, rest) := by
  rcases h with ⟨a, x, y, rfl, ha, hx, hy⟩ | ⟨a, b, x, y, rfl, ha, hb, hx, hy⟩
  · exact clockScan_one_digit a x y rest ha hx hy
  · exact clockScan_two_digit a b x y rest ha hb hx hy

theorem rangeScan_built {c1 c2 : List Char} {mer : Mer}
    (h1 : ClockShape c1) (h2 : ClockShape c2) :
    rangeScan (c1 ++ merChars mer ++ '-' :: (c2 ++ merChars mer)) =
      some (c1, some mer, c2, some mer) := by
  unfold rangeScan
  rw [show c1 ++ merChars mer ++ '-' :: (c2 ++ merChars mer) =
    c1 ++ (merChars mer ++ '-' :: (c2 ++ merChars mer)) from by
      simp [List.append_assoc]]
  rw [clockScan_shape_front h1]
  simp only []
  rw [merScan_merChars]
  simp only []
  rw [clockScan_shape_front h2]
  simp only []
  rw [merScan_merChars_nil]
  simp

theorem rangeScan_shapes {l c1 c2 : List Char} {m1 m2 : Option Mer}
    (h : rangeScan l = some (c1, m1, c2, m2)) :
    ClockShape c1 ∧ ClockShape c2 := by
  unfold rangeScan at h
  split at h
  case _ => exact absurd h (by simp)
  case _ c1' r1 heq1 =>
    obtain ⟨hdec1, hshape1⟩ := clockScan_some heq1
    rcases hm : merScan r1 with ⟨m1', r2⟩
    rw [hm] at h
    simp only [] at h
    split at h
    case _ r3 =>
      split at h
      case _ => exact absurd h (by simp)
      case _ c2' r4 heq2 =>
        obtain ⟨hdec2, hshape2⟩ := clockScan_some heq2
        rcases hm2 : merScan r4 with ⟨m2', r5⟩
        rw [hm2] at h
        simp only [] at h
        split_ifs at h
        rw [Option.some.injEq, Prod.mk.injEq, Prod.mk.injEq, Prod.mk.injEq] at h
        obtain ⟨hc1, _, hc2, _⟩ := h
        subst hc1
        subst hc2
        exact ⟨hshape1, hshape2⟩
    case _ => exact absurd h (by simp)

/-- C4: meridiem inheritance is symmetric: whenever the normalized
input matches the range shape with exactly one side carrying a
meridiem, parsing it equals parsing the string with that meridiem
attached to both clocks; in particular `7:30-8:15am` parses exactly
like `7:30am-8:15am`. -/
theorem c4_meridiem_inheritance :
    (∀ (v : String) (c1 c2 : List Char) (mer : Mer),
      (rangeScan (Nycda.normalizeChars v) = some (c1, none, c2, some mer) ∨
       rangeScan (Nycda.normalizeChars v) = some (c1, some mer, c2, none)) →
      Nycda.parse_time_range v =
        Nycda.parse_time_range
          ⟨c1 ++ merChars mer ++ '-' :: (c2 ++ merChars mer)⟩) ∧
    Nycda.parse_time_range "7:30-8:15am" =
      Nycda.parse_time_range "7:30am-8:15am" := by
  constructor
  · intro v c1 c2 mer hd
    have hex : ∃ m1 m2,
        rangeScan (Nycda.normalizeChars v) = some (c1, m1, c2, m2) ∧
        Nycda.rangeFinish c1 m1 c2 m2 =
          Nycda.rangeFinish c1 (some mer) c2 (some mer) := by
      rcases hd with h | h
      · exact ⟨none, some mer, h, rfl⟩
      · exact ⟨some mer, none, h, rfl⟩
    obtain ⟨m1, m2, hscan, hfin⟩ := hex
    obtain ⟨hs1, hs2⟩ := rangeScan_shapes hscan
    have hne : Nycda.normalizeChars v ≠ [] := by
      intro hnil
      rw [hnil] at hscan
      exact absurd hscan (by simp [rangeScan, clockScan])
    have hnorm := normalizeChars_built mer hs1 hs2
    have hbne : Nycda.normalizeChars
        ⟨c1 ++ merChars mer ++ '-' :: (c2 ++ merChars mer)⟩ ≠ [] := by
      rw [hnorm]
      intro hnil
      rw [List.append_assoc, List.append_eq_nil] at hnil
      exact clock_shape_ne_nil hs1 hnil.1
    unfold Nycda.parse_time_range
    simp only []
    rw [if_neg hne, if_neg hbne, hscan, hnorm, rangeScan_built hs1 hs2]
    simp only []
    exact hfin
  · decide

/-- C4 (witness): the inheritance instance at the concrete range
`7:30-8:15am`, reconstructed with `am` on both sides. -/
theorem c4_witness :
    Nycda.parse_time_range "7:30-8:15am" =
      Nycda.parse_time_range
        ⟨['7', ':', '3', '0'] ++ merChars Mer.am ++
          '-' :: (['8', ':', '1', '5'] ++ merChars Mer.am)⟩ :=
  c4_meridiem_inheritance.1 "7:30-8:15am" ['7', ':', '3', '0']
    ['8', ':', '1', '5'] Mer.am (Or.inl (by decide))

/-! ### Lemmas for the failure characterization -/

theorem digitVal_le {c : Char} (h : digitB c = true) : digitVal c ≤ 9 := by
  unfold digitB at h
  unfold digitVal
  simp only [Bool.and_eq_true, decide_eq_true_eq] at h
  omega

theorem clock_shape_wsfree {c : List Char} (hs : ClockShape c) :
    ∀ ch ∈ c, wsB ch = false := by
  intro ch hch
  rcases clock_shape_chars hs ch hch with hd | rfl
  · exact digitB_not_ws hd
  · decide

theorem clockScan_shape_self {c : List Char} (hs : ClockShape c) :
    clockScan c = some (c, []) := by
  have := clockScan_shape_front hs []
  simpa using this

theorem hourMin_shape {c : List Char} (hs : ClockShape c) :
    ∃ h₀ m₀ : Int, hourMin c = some (h₀, m₀) ∧ 0 ≤ h₀ ∧ 0 ≤ m₀ ∧
      h₀ ≤ 99 ∧ m₀ ≤ 99 := by
  rcases hs with ⟨a, x, y, rfl, ha, hx, hy⟩ | ⟨a, b, x, y, rfl, ha, hb, hx, hy⟩
  · refine ⟨(digitVal a : Int), ((10 * digitVal x + digitVal y : Nat) : Int),
      by simp [hourMin], ?_, ?_, ?_, ?_⟩
    · positivity
    · positivity
    · have := digitVal_le ha
      omega
    · have h1 := digitVal_le hx
      have h2 := digitVal_le hy
      push_cast
      omega
  · refine ⟨((10 * digitVal a + digitVal b : Nat) : Int),
      ((10 * digitVal x + digitVal y : Nat) : Int),
      by simp [hourMin], ?_, ?_, ?_, ?_⟩
    · positivity
    · positivity
    · have h1 := digitVal_le ha
      have h2 := digitVal_le hb
      push_cast
      omega
    · have h1 := digitVal_le hx
      have h2 := digitVal_le hy
      push_cast
      omega

theorem clock_to_minutes_none_iff {c : List Char} (hs : ClockShape c)
    (mer : Option Mer) :
    Nycda.clock_to_minutes c mer = none ↔ ¬ clock_ok c mer := by
  have hclean : cleanChars c = c :=
    cleanChars_of_wsfree c (clock_shape_ne_nil hs) (clock_shape_wsfree hs)
  obtain ⟨h₀, m₀, hhm, hh0, hm0, hhb, hmb⟩ := hourMin_shape hs
  have hok : clock_ok c mer ↔ hour_ok mer h₀ ∧ minute_ok m₀ := by
    unfold clock_ok
    constructor
    · rintro ⟨h, m, hhm', hho, hmo⟩
      rw [hhm, Option.some.injEq, Prod.mk.injEq] at hhm'
      obtain ⟨rfl, rfl⟩ := hhm'
      exact ⟨hho, hmo⟩
    · rintro ⟨hho, hmo⟩
      exact ⟨h₀, m₀, hhm, hho, hmo⟩
  rw [hok]
  unfold Nycda.clock_to_minutes
  rw [hclean, clockScan_shape_self hs]
  simp only []
  rw [hhm]
  simp only []
  cases mer with
  | some m =>
    simp only [hour_ok, minute_ok]
    by_cases h1 : m₀ < 0 ∨ 59 < m₀
    · rw [if_pos h1]
      constructor
      · rintro - ⟨-, hmo⟩
        omega
      · intro _
        rfl
    · rw [if_neg h1]
      by_cases h2 : h₀ < 1 ∨ 12 < h₀
      · rw [if_pos h2]
        constructor
        · rintro - ⟨⟨hha, hhb'⟩, -⟩
          omega
        · intro _
          rfl
      · rw [if_neg h2]
        constructor
        · intro hsome
          exact absurd hsome (by simp)
        · intro hnot
          exfalso
          exact hnot ⟨⟨by omega, by omega⟩, by omega, by omega⟩
  | none =>
    simp only [hour_ok, minute_ok]
    by_cases h1 : m₀ < 0 ∨ 59 < m₀
    · rw [if_pos h1]
      constructor
      · rintro - ⟨-, hmo⟩
        omega
      · intro _
        rfl
    · rw [if_neg h1]
      by_cases h2 : h₀ < 0 ∨ 23 < h₀
      · rw [if_pos h2]
        constructor
        · rintro - ⟨⟨hha, hhb'⟩, -⟩
          omega
        · intro _
          rfl
      · rw [if_neg h2]
        constructor
        · intro hsome
          exact absurd hsome (by simp)
        · intro hnot
          exfalso
          exact hnot ⟨⟨by omega, by omega⟩, by omega, by omega⟩

theorem singleScan_of_range {l : List Char}
    {q : List Char × Option Mer × List Char × Option Mer}
    (h : rangeScan l = some q) : singleScan l = none := by
  unfold rangeScan at h
  split at h
  case _ => exact absurd h (by simp)
  case _ c1 r1 heq =>
    rcases hm : merScan r1 with ⟨m1, r2⟩
    rw [hm] at h
    simp only [] at h
    unfold singleScan
    rw [heq]
    simp only []
    rw [hm]
    simp only []
    split at h
    case _ r3 => rw [if_neg (by simp)]
    case _ => exact absurd h (by simp)

theorem singleScan_shape {l c : List Char} {m : Option Mer}
    (h : singleScan l = some (c, m)) : ClockShape c := by
  unfold singleScan at h
  split at h
  case _ => exact absurd h (by simp)
  case _ c' r heq =>
    rcases hm : merScan r with ⟨m', r'⟩
    rw [hm] at h
    simp only [] at h
    split_ifs at h
    rw [Option.some.injEq, Prod.mk.injEq] at h
    obtain ⟨hc, -⟩ := h
    subst hc
    exact (clockScan_some heq).2

/-- C6: the time parser returns the unparseable result exactly when
the normalized input matches neither accepted shape, or the matched
shape has (after meridiem inheritance) a clock whose minute is outside
0-59 or whose hour is outside the applicable range (1-12 with a
meridiem, 0-23 without). -/
theorem c6_failure_characterization (v : String) :
    Nycda.parse_time_range v = none ↔ ¬ WellFormedTime v := by
  unfold WellFormedTime
  unfold Nycda.parse_time_range
  simp only []
  by_cases hnil : Nycda.normalizeChars v = []
  · rw [if_pos hnil, hnil]
    constructor
    · rintro - (⟨c1, m1, c2, m2, hsc, -⟩ | ⟨c, m, hsc, -⟩)
      · exact absurd hsc (by simp [rangeScan, clockScan])
      · exact absurd hsc (by simp [singleScan, clockScan])
    · intro _
      rfl
  · rw [if_neg hnil]
    rcases hr : rangeScan (Nycda.normalizeChars v) with - | ⟨c1, m1, c2, m2⟩
    · simp only []
      rcases hs : singleScan (Nycda.normalizeChars v) with - | ⟨c, m⟩
      · simp only []
        constructor
        · rintro - (⟨c1, m1, c2, m2, hsc, -⟩ | ⟨c, m, hsc, -⟩)
          · exact absurd hsc (by simp)
          · exact absurd hsc (by simp)
        · intro _
          trivial
      · simp only []
        have hshape : ClockShape c := singleScan_shape hs
        unfold Nycda.singleFinish
        constructor
        · intro hn hwf
          rcases hwf with ⟨c1, m1, c2, m2, hsc, -⟩ | ⟨c', m', hsc, hok⟩
          · exact absurd hsc (by simp)
          · rw [Option.some.injEq, Prod.mk.injEq] at hsc
            obtain ⟨rfl, rfl⟩ := hsc
            cases hcm : Nycda.clock_to_minutes c m with
            | none =>
              exact (clock_to_minutes_none_iff hshape m).mp hcm hok
            | some sm =>
              rw [hcm] at hn
              exact absurd hn (by simp)
        · intro hnwf
          cases hcm : Nycda.clock_to_minutes c m with
          | none => rfl
          | some sm =>
            exfalso
            apply hnwf
            refine Or.inr ⟨c, m, rfl, ?_⟩
            by_contra hnok
            rw [(clock_to_minutes_none_iff hshape m).mpr hnok] at hcm
            exact absurd hcm (by simp)
    · simp only []
      obtain ⟨hs1, hs2⟩ := rangeScan_shapes hr
      simp only [Nycda.rangeFinish]
      constructor
      · intro hn hwf
        rcases hwf with ⟨c1', m1', c2', m2', hsc, hok1, hok2⟩ | ⟨c', m', hsc, -⟩
        · rw [Option.some.injEq, Prod.mk.injEq, Prod.mk.injEq,
            Prod.mk.injEq] at hsc
          obtain ⟨rfl, rfl, rfl, rfl⟩ := hsc
          cases hcm1 : Nycda.clock_to_minutes c1 (inheritStart m1 m2) with
          | none =>
            exact (clock_to_minutes_none_iff hs1 _).mp hcm1 hok1
          | some sm =>
            cases hcm2 : Nycda.clock_to_minutes c2 (inheritEnd m1 m2) with
            | none =>
              exact (clock_to_minutes_none_iff hs2 _).mp hcm2 hok2
            | some em =>
              rw [hcm1, hcm2] at hn
              exact absurd hn (by simp)
        · rw [singleScan_of_range hr] at hsc
          exact absurd hsc (by simp)
      · intro hnwf
        cases hcm1 : Nycda.clock_to_minutes c1 (inheritStart m1 m2) with
        | none => rfl
        | some sm =>
          cases hcm2 : Nycda.clock_to_minutes c2 (inheritEnd m1 m2) with
          | none => rfl
          | some em =>
            exfalso
            apply hnwf
            refine Or.inl ⟨c1, m1, c2, m2, rfl, ?_, ?_⟩
            · by_contra hnok
              rw [(clock_to_minutes_none_iff hs1 _).mpr hnok] at hcm1
              exact absurd hcm1 (by simp)
            · by_contra hnok
              rw [(clock_to_minutes_none_iff hs2 _).mpr hnok] at hcm2
              exact absurd hcm2 (by simp)
